import Mathlib

/-!
Verification of the NCC orchestrator core against its specification.

Strings are modelled as `List Char` (Go strings are byte/rune sequences; all
inputs relevant here are Unicode text, and `List Char` supports the structural
induction the proofs need).  Each definition below is a direct translation of
the corresponding Go function; the file then proves or refutes the frozen
claims about the parser (`pkg/parser/parser.go`), the filtered-file writer and
filter stage (`pkg/cmd/root.go`), the retrying HTTP caller
(`pkg/client/ncc_client.go` retry layer), and the polling state machine
(`pkg/cmd/root.go`).
-/

/-! ## Line splitting (parser.go `splitLines`)

Go's `splitLines` reads lines with `bufio.Scanner` (split on `'\n'`, dropping a
single trailing `'\r'` from each line) and, when the input ends in `'\n'`,
appends one final empty line.  On a non-empty input this is exactly: split on
`'\n'` keeping empty pieces, then drop one trailing `'\r'` per piece.  On the
empty input the scanner yields no lines at all.  The scanner's 4 MiB token
limit is not modelled (lines are unbounded here). -/

/-- Splits a character list at every occurrence of `sep`, keeping empty pieces;
returns the piece before the first separator and the remaining pieces
(semantics of Go `strings.Split`). -/
def splitChAux (sep : Char) : List Char → List Char × List (List Char)
  | [] => ([], [])
  | c :: cs =>
    let r := splitChAux sep cs
    if c = sep then ([], r.1 :: r.2) else (c :: r.1, r.2)

/-- All pieces of a split, in order; always non-empty (Go `strings.Split`
never returns an empty slice). -/
def splitCh (sep : Char) (s : List Char) : List (List Char) :=
  (splitChAux sep s).1 :: (splitChAux sep s).2

/-- Drops one trailing carriage return, as `bufio.ScanLines` does per line. -/
def dropCR (l : List Char) : List Char :=
  if l.getLast? = some '\r' then l.dropLast else l

/-- Go `splitLines`: no lines for the empty input, otherwise newline-separated
pieces with one trailing `'\r'` removed from each. -/
def splitLines (s : List Char) : List (List Char) :=
  if s = [] then [] else (splitCh '\n' s).map dropCR

/-- Go `strings.Join(lines, "\n")`: the inverse direction of line splitting,
used by the parser to build a finding's raw detail. -/
def joinLines : List (List Char) → List Char
  | [] => []
  | [l] => l
  | l :: l' :: ls => l ++ '\n' :: joinLines (l' :: ls)

/-! ## Severity detection (parser.go `detectSeverity`)

The Go regex is `\b(FAIL|WARN|INFO|ERR):`.  Every alternative starts with an
ASCII letter, so the `\b` assertion holds at a position exactly when the
preceding character is not a word character (`[0-9A-Za-z_]`) or the position is
the start of the text; the leftmost such occurrence wins (the alternatives have
pairwise distinct first letters, so at most one matches at a given position).
If the regex finds nothing, the Go code falls back to plain substring tests. -/

/-- Go regexp `\w` class (ASCII alphanumerics and underscore). -/
def isWordChar (c : Char) : Bool := c.isAlphanum || c = '_'

/-- The severity token matching at the head of the text, if any; alternation
order as in the Go pattern `(FAIL|WARN|INFO|ERR):`. -/
def sevHead (l : List Char) : Option (List Char) :=
  if "FAIL:".toList.isPrefixOf l then some "FAIL".toList
  else if "WARN:".toList.isPrefixOf l then some "WARN".toList
  else if "INFO:".toList.isPrefixOf l then some "INFO".toList
  else if "ERR:".toList.isPrefixOf l then some "ERR".toList
  else none

/-- Leftmost match of `\b(FAIL|WARN|INFO|ERR):`; the flag records whether the
previous character was a word character (false at the start of the text). -/
def findSev : Bool → List Char → Option (List Char)
  | _, [] => none
  | prevWord, c :: cs =>
    if prevWord then findSev (isWordChar c) cs
    else
      match sevHead (c :: cs) with
      | some v => some v
      | none => findSev (isWordChar c) cs

/-- Go `strings.Contains s sub`. -/
def containsSub (sub : List Char) : List Char → Bool
  | [] => sub.isEmpty
  | c :: t => sub.isPrefixOf (c :: t) || containsSub sub t

/-- parser.go `detectSeverity`: first the word-boundary regex, then the
substring fallbacks in source order, defaulting to INFO. -/
def detectSeverity (s : List Char) : List Char :=
  match findSev false s with
  | some v => v
  | none =>
    if containsSub "FAIL:".toList s then "FAIL".toList
    else if containsSub "WARN:".toList s then "WARN".toList
    else if containsSub "ERR:".toList s then "ERR".toList
    else if containsSub "INFO:".toList s then "INFO".toList
    else "INFO".toList

/-! ## Block scanning (parser.go `ParseSummary`) -/

/-- types.go `ParsedBlock`. -/
structure ParsedBlock where
  Severity : List Char
  CheckName : List Char
  DetailRaw : List Char
deriving DecidableEq, Repr

/-- Regex `^Detailed information for .*`: anchored prefix test. -/
def isBlockStart (l : List Char) : Bool := "Detailed information for ".toList.isPrefixOf l

/-- Regex `^Refer to.*`: anchored prefix test. -/
def isBlockEnd (l : List Char) : Bool := "Refer to".toList.isPrefixOf l

/-- Builds one parsed block from its check-name line and collected detail
lines, exactly as the `blocks = append(...)` site does. -/
def mkBlock (cn : List Char) (buf : List (List Char)) : ParsedBlock :=
  { Severity := detectSeverity (joinLines buf), CheckName := cn, DetailRaw := joinLines buf }

/-- The scan loop of `ParseSummary`.  The Go code is one pass with index `i`:
outside a block it looks for a line matching the start regex; inside it
accumulates lines until the first line matching the end regex (inclusive), and
an unterminated final block is still emitted.  The state is `none` outside a
block and `some (checkName, accumulatedLines)` inside one. -/
def scanLines : Option (List Char × List (List Char)) → List (List Char) → List ParsedBlock
  | none, [] => []
  | some (cn, buf), [] => [mkBlock cn buf]
  | none, l :: ls =>
    if isBlockStart l then scanLines (some (l, [])) ls else scanLines none ls
  | some (cn, buf), l :: ls =>
    if isBlockEnd l then mkBlock cn (buf ++ [l]) :: scanLines none ls
    else scanLines (some (cn, buf ++ [l])) ls

/-- The two failure cases of `ParseSummary` (`errors.ParseError` with the
messages "empty summary text" and "no valid blocks found in summary"). -/
inductive ParseErr where
  | emptyInput
  | noFindings
deriving DecidableEq, Repr

/-- parser.go `ParseSummary`. -/
def ParseSummary (text : List Char) : Except ParseErr (List ParsedBlock) :=
  if text = [] then .error .emptyInput
  else
    let blocks := scanLines none (splitLines text)
    if blocks.isEmpty then .error .noFindings else .ok blocks

/-! ## Filtered-file serialization (root.go `filterBlocksToFile` / `buildFilteredLog`)

Both functions write, per block, `CheckName`, `"\n"`, `DetailRaw`,
`"\n\n---------------------------------------\n"` (39 dashes) into a string
builder, starting from the empty string. -/

/-- The 39-dash separator line from root.go. -/
def sepLine : List Char := "---------------------------------------".toList

/-- The bytes appended for one block by the writer loop. -/
def blockChunk (pb : ParsedBlock) : List Char :=
  pb.CheckName ++ '\n' :: (pb.DetailRaw ++ '\n' :: '\n' :: (sepLine ++ ['\n']))

/-- The builder loop of `filterBlocksToFile`/`buildFilteredLog`: fold over the
blocks appending each block's bytes. -/
def serializeBlocks (blocks : List ParsedBlock) : List Char :=
  blocks.foldl (fun acc pb => acc ++ blockChunk pb) []

deriving instance DecidableEq for Except

/-! ## Filter stage and worker result (root.go `applyFilters`, `runNCCChecks`)

The two compiled regexes are modelled as abstract match predicates
(`Option (List Char → Bool)`): `none` stands for "no filter configured, or the
pattern failed to compile" — exactly the cases in which the Go code leaves the
corresponding `*regexp.Regexp` nil. -/

/-- Go `unicode.IsSpace` restricted to the Latin-1 range, which is all
`strings.TrimSpace` can see in the ASCII severity names compared here. -/
def goIsSpace (c : Char) : Bool :=
  c = ' ' || c = '\t' || c = '\n' || c = '\x0B' || c = '\x0C' || c = '\r' ||
  c = '\u0085' || c = '\u00A0'

/-- Go `strings.TrimSpace`. -/
def trimSpace (l : List Char) : List Char :=
  ((l.dropWhile goIsSpace).reverse.dropWhile goIsSpace).reverse

/-- The per-block test of the `applyFilters` loop: the severity filter (comma
separated, each entry trimmed) and the check-name regex, AND-combined; an
absent filter passes everything. -/
def keepBlock (sevFilter : List Char) (checkRegex : Option (List Char → Bool))
    (b : ParsedBlock) : Bool :=
  (if sevFilter ≠ [] then
    (splitCh ',' sevFilter).any (fun s => trimSpace s = b.Severity)
  else true)
  && (match checkRegex with
      | some m => m b.CheckName
      | none => true)

/-- root.go `applyFilters`: a non-matching cluster regex empties the result
outright; otherwise blocks are kept per `keepBlock`.  The Go function builds
the result by appending to a nil slice, so it returns the nil slice exactly
when no block survives. -/
def applyFilters (blocks : List ParsedBlock) (cluster sevFilter : List Char)
    (checkRegex clusterRegex : Option (List Char → Bool)) : List ParsedBlock :=
  match clusterRegex with
  | some m =>
    if m cluster then blocks.filter (keepBlock sevFilter checkRegex) else []
  | none => blocks.filter (keepBlock sevFilter checkRegex)

/-- types.go `ClusterResult`.  `Blocks` is `Option` because Go distinguishes a
nil findings slice from a non-empty one; the code never publishes a non-nil
empty slice, so `none` models nil. -/
structure ClusterResult where
  Cluster : List Char
  Blocks : Option (List ParsedBlock)
  Err : Option (List Char)
deriving DecidableEq

/-- The publication site in `runNCCChecks`: a worker that failed (including by
panic) publishes nil blocks and its error; a worker whose
`runClusterWithBars` succeeded publishes the filtered blocks (nil when the
filter stage removed everything, because `applyFilters` appends to a nil
slice) and a nil error. -/
def publishResult (cl : List Char)
    (outcome : Except (List Char) (List ParsedBlock))
    (cluster sevFilter : List Char)
    (checkRegex clusterRegex : Option (List Char → Bool)) : ClusterResult :=
  match outcome with
  | .error e => { Cluster := cl, Blocks := none, Err := some e }
  | .ok blocks =>
    let f := applyFilters blocks cluster sevFilter checkRegex clusterRegex
    { Cluster := cl, Blocks := if f.isEmpty then none else some f, Err := none }

/-! ## Retrying HTTP caller (ncc_client.go)

`time.Duration` is a signed 64-bit integer of nanoseconds; duration arithmetic
wraps on overflow.  The one computation that cannot be embedded exactly is the
float expression `float64(base) * math.Pow(2, attempt-1)` inside
`jitteredBackoff`: its value after conversion back to `time.Duration` is an
arbitrary int64 (large bases overflow through ±Inf to implementation-defined
values).  The model therefore takes that already-converted value as a
parameter `e`, so every theorem below quantifies over all behaviours of the
float computation.  `rand.Int63n` is modelled as a parameter `rng`; its
documented contract (defined only for a positive bound, result in `[0, n)`) is
a hypothesis where needed. -/

/-- Wrap-around of 64-bit signed integer arithmetic (`time.Duration`). -/
def wrap64 (x : Int) : Int := (x + 2 ^ 63) % 2 ^ 64 - 2 ^ 63

/-- Accumulates decimal digits; fails on any non-digit (tail of
`strconv.Atoi` after the sign). -/
def parseDigitsAux : Nat → List Char → Option Nat
  | acc, [] => some acc
  | acc, c :: cs =>
    if c.isDigit then parseDigitsAux (acc * 10 + (c.toNat - 48)) cs else none

/-- At least one digit required. -/
def parseDigits : List Char → Option Nat
  | [] => none
  | cs => parseDigitsAux 0 cs

/-- Go `strconv.Atoi`: optional sign, decimal digits, and the int64 range
check (out-of-range input is an error). -/
def goAtoi (s : List Char) : Option Int :=
  let signed : Int × List Char :=
    match s with
    | '+' :: t => (1, t)
    | '-' :: t => (-1, t)
    | t => (1, t)
  match parseDigits signed.2 with
  | none => none
  | some n =>
    let v : Int := signed.1 * n
    if v < -(2 ^ 63) ∨ 2 ^ 63 - 1 < v then none else some v

/-- ncc_client.go `retryAfterDelay`.  The header is `""` when absent
(`Header.Get`).  An integer header `k` yields `k` seconds, i.e.
`k * time.Second` with int64 wrap-around.  A non-integer header falls back to
`http.ParseTime`; that branch depends on the wall clock, so it is a parameter
`ptd` returning the (not yet clamped) `time.Until` result, `none` when the
date does not parse. -/
def retryAfterDelay (header : List Char) (ptd : List Char → Option Int) :
    Int × Bool :=
  if header = [] then (0, false)
  else
    match goAtoi header with
    | some secs => (wrap64 (secs * 1000000000), true)
    | none =>
      match ptd header with
      | some d => (if d < 0 then 0 else d, true)
      | none => (0, false)

/-- ncc_client.go `jitteredBackoff`; `e` is the value of
`time.Duration(float64(base) * math.Pow(2, attempt-1))` (see section note). -/
def jitteredBackoff (e maxDelay : Int) (rng : Int → Int) : Int :=
  let capDelay := if e > maxDelay then maxDelay else e
  if capDelay ≤ 0 then 0 else rng capDelay

/-- email.go (errors package) `IsRetryableStatus`. -/
def isRetryableStatus (code : Int) : Bool :=
  code = 408 || code = 429 || code = 500 || code = 502 || code = 503 || code = 504

/-- The backoff selection of `DoWithRetry` for an attempt that got an HTTP
response: `back` starts at 0, is set from `Retry-After` only for status 429,
and falls back to the jittered backoff when still 0. -/
def selectBackoff (status : Int) (header : List Char)
    (ptd : List Char → Option Int) (e maxDelay : Int) (rng : Int → Int) : Int :=
  let back : Int :=
    if status = 429 then
      let r := retryAfterDelay header ptd
      if r.2 then r.1 else 0
    else 0
  if back = 0 then jitteredBackoff e maxDelay rng else back

/-- What one attempt of `DoWithRetry` observes: a transport error from
`client.Do`, a failure reading the response body, or a complete response
(status, `Retry-After` header value, body). -/
inductive AttemptOutcome where
  | transportErr
  | readErr
  | ok (status : Int) (header : List Char) (body : List Char)

/-- Terminal results of `DoWithRetry`: success with body, the `http-status`
error carrying status and URL (`errors.NewHTTPError`), or a network-class
error. -/
inductive RetryRes where
  | success (status : Int) (body : List Char)
  | httpErr (status : Int) (url : List Char)
  | netErr (msg : List Char)
deriving DecidableEq

/-- One run of the retry loop: the terminal result, the number of attempts
issued, and every backoff delay waited between consecutive attempts. -/
structure RunTrace where
  result : RetryRes
  attemptsUsed : Nat
  delays : List Int
deriving DecidableEq

/-- The attempt loop of `DoWithRetry` (ncc_client.go lines 154-234), without
the outer-context cancellation checks (cancellation is real-time behaviour;
none of the settled claims depends on it).  `o` gives attempt `k`'s outcome,
`e` and `rng` the attempt-indexed float backoff value and random draw,
`remaining` the attempts left including the current one (`attempt < attempts`
in Go is `remaining ≠ 1` here).  The `remaining = 0` case is the unreachable
code after the Go loop. -/
def doRetryAux (o : Nat → AttemptOutcome) (url : List Char)
    (ptd : List Char → Option Int) (e : Nat → Int) (maxDelay : Int)
    (rng : Nat → Int → Int) : Nat → Nat → RunTrace
  | _, 0 => { result := .netErr "exhausted retries".toList, attemptsUsed := 0, delays := [] }
  | attempt, remaining + 1 =>
    match o attempt with
    | .transportErr =>
      if remaining = 0 then
        { result := .netErr "request failed after retries".toList, attemptsUsed := 1, delays := [] }
      else
        let d := jitteredBackoff (e attempt) maxDelay (rng attempt)
        let t := doRetryAux o url ptd e maxDelay rng (attempt + 1) remaining
        { result := t.result, attemptsUsed := t.attemptsUsed + 1, delays := d :: t.delays }
    | .readErr =>
      if remaining = 0 then
        { result := .netErr "failed to read response body".toList, attemptsUsed := 1, delays := [] }
      else
        let d := jitteredBackoff (e attempt) maxDelay (rng attempt)
        let t := doRetryAux o url ptd e maxDelay rng (attempt + 1) remaining
        { result := t.result, attemptsUsed := t.attemptsUsed + 1, delays := d :: t.delays }
    | .ok status header body =>
      if 200 ≤ status ∧ status < 300 then
        { result := .success status body, attemptsUsed := 1, delays := [] }
      else
        let d := selectBackoff status header ptd (e attempt) maxDelay (rng attempt)
        if isRetryableStatus status ∧ remaining ≠ 0 then
          let t := doRetryAux o url ptd e maxDelay rng (attempt + 1) remaining
          { result := t.result, attemptsUsed := t.attemptsUsed + 1, delays := d :: t.delays }
        else
          { result := .httpErr status url, attemptsUsed := 1, delays := [] }

/-- ncc_client.go `DoWithRetry` entry: at least one attempt is always made
(`if attempts < 1 { attempts = 1 }`). -/
def DoWithRetry (o : Nat → AttemptOutcome) (url : List Char)
    (ptd : List Char → Option Int) (e : Nat → Int) (maxDelay : Int)
    (rng : Nat → Int → Int) (maxAttempts : Nat) : RunTrace :=
  doRetryAux o url ptd e maxDelay rng 1 (max maxAttempts 1)

/-! ## Polling state machine (root.go `runClusterWithBars`, lines 701-741) -/

/-- types.go `TaskStatus`. -/
structure PollStatus where
  PercentageComplete : Int
  ProgressStatus : List Char

/-- The clamping applied to each polled percentage: raise to the previous
value, then cap at 100 (source order: `if pct < last` then `if pct > 100`). -/
def clampPct (last p : Int) : Int :=
  let p1 := if p < last then last else p
  if p1 > 100 then 100 else p1

/-- The polling loop: each iteration clamps the remote percentage, reports it
(`onPct`), then stops with failure if the remote status is "Failed" and with
success once the reported percent reaches 100.  The returned list is the
sequence of reported percents; the flag is `some true` on success (control
reaches the summary fetch), `some false` on remote failure, `none` when the
supplied poll responses ran out (i.e. the run would still be polling). -/
def pollLoop (last : Int) : List PollStatus → List Int × Option Bool
  | [] => ([], none)
  | st :: rest =>
    let pct := clampPct last st.PercentageComplete
    if st.ProgressStatus = "Failed".toList then ([pct], some false)
    else if 100 ≤ pct then ([pct], some true)
    else
      let r := pollLoop pct rest
      (pct :: r.1, r.2)

/-! ## Claim-side measuring definitions

These do not model source code; they state properties the claims quantify
over (lines of a detail, its `Refer to` lines) and, for C5, the file format
exactly as the specification words it. -/

/-- The lines of a stored detail string (details are newline-joined). -/
def detailLines (d : List Char) : List (List Char) := splitCh '\n' d

/-- The lines of a detail matching `^Refer to.*`. -/
def referLines (d : List Char) : List (List Char) := (detailLines d).filter isBlockEnd

/-- Whether the last line of a detail matches `^Refer to.*`. -/
def lastLineIsEnd (d : List Char) : Bool :=
  match (detailLines d).getLast? with
  | some l => isBlockEnd l
  | none => false

/-- Modelled from the spec: the per-finding block format claimed in §4.4 —
`check-name\n\ndetail\n\n---------------------------------------\n`, with a
blank line between the check-name line and the detail.  Written from the
claim's words, to be compared with `blockChunk` from the source. -/
def claimedChunk (pb : ParsedBlock) : List Char :=
  pb.CheckName ++ '\n' :: '\n' :: (pb.DetailRaw ++ '\n' :: '\n' :: (sepLine ++ ['\n']))

/-- Modelled from the spec: the claimed filtered-file content, the
concatenation of `claimedChunk` over the findings in order. -/
def claimedSerialize (blocks : List ParsedBlock) : List Char :=
  (blocks.map claimedChunk).flatten

/-- The well-formedness a finding needs for the exact parse/serialize round
trip: its check-name is a single, CR-clean line matching the start regex, its
severity is the one the parser derives from the detail, its detail's lines
are CR-clean, none but the last matches the end regex, and the last does. -/
def SerWF (b : ParsedBlock) : Prop :=
  isBlockStart b.CheckName = true ∧ '\n' ∉ b.CheckName ∧ dropCR b.CheckName = b.CheckName
  ∧ b.Severity = detectSeverity b.DetailRaw
  ∧ (∀ l ∈ detailLines b.DetailRaw, dropCR l = l)
  ∧ (∀ l ∈ (detailLines b.DetailRaw).dropLast, isBlockEnd l = false)
  ∧ lastLineIsEnd b.DetailRaw = true

/-! ## Helper lemmas on line splitting and joining -/

theorem splitChAux_sep_notMem (sep : Char) (s : List Char) :
    sep ∉ (splitChAux sep s).1 ∧ ∀ l ∈ (splitChAux sep s).2, sep ∉ l := by
  induction s with
  | nil => simp [splitChAux]
  | cons c cs ih =>
    by_cases h : c = sep
    · simpa [splitChAux, h] using ⟨ih.1, ih.2⟩
    · simp only [splitChAux, if_neg h]
      refine ⟨?_, ih.2⟩
      simp only [List.mem_cons, not_or]
      exact ⟨fun hc => h hc.symm, ih.1⟩

theorem splitCh_sep_notMem (sep : Char) (s : List Char) :
    ∀ l ∈ splitCh sep s, sep ∉ l := by
  intro l hl
  rcases List.mem_cons.mp hl with h | h
  · exact h ▸ (splitChAux_sep_notMem sep s).1
  · exact (splitChAux_sep_notMem sep s).2 l h

theorem splitChAux_of_sep_notMem (sep : Char) (l : List Char) (h : sep ∉ l) :
    splitChAux sep l = (l, []) := by
  induction l with
  | nil => simp [splitChAux]
  | cons c cs ih =>
    simp only [List.mem_cons, not_or] at h
    have hc : ¬c = sep := fun hc => h.1 hc.symm
    simp [splitChAux, hc, ih h.2]

theorem splitCh_of_sep_notMem (sep : Char) (l : List Char) (h : sep ∉ l) :
    splitCh sep l = [l] := by
  simp [splitCh, splitChAux_of_sep_notMem sep l h]

theorem splitChAux_append_sep (sep : Char) (l t : List Char) (h : sep ∉ l) :
    splitChAux sep (l ++ sep :: t) = (l, (splitChAux sep t).1 :: (splitChAux sep t).2) := by
  induction l with
  | nil => simp [splitChAux]
  | cons c cs ih =>
    simp only [List.mem_cons, not_or] at h
    have hc : ¬c = sep := fun hc => h.1 hc.symm
    simp [splitChAux, ih h.2, hc]

theorem splitCh_append_sep (sep : Char) (l t : List Char) (h : sep ∉ l) :
    splitCh sep (l ++ sep :: t) = l :: splitCh sep t := by
  simp [splitCh, splitChAux_append_sep sep l t h]

theorem joinLines_splitCh (s : List Char) : joinLines (splitCh '\n' s) = s := by
  induction s with
  | nil => rfl
  | cons c cs ih =>
    by_cases h : c = '\n'
    · subst h
      have h1 : splitCh '\n' ('\n' :: cs) =
          [] :: (splitChAux '\n' cs).1 :: (splitChAux '\n' cs).2 := by
        simp [splitCh, splitChAux]
      rw [h1]
      show '\n' :: joinLines (splitCh '\n' cs) = '\n' :: cs
      rw [ih]
    · have h1 : splitCh '\n' (c :: cs) =
          (c :: (splitChAux '\n' cs).1) :: (splitChAux '\n' cs).2 := by
        simp [splitCh, splitChAux, h]
      rw [h1]
      simp only [splitCh] at ih
      rcases he : (splitChAux '\n' cs).2 with _ | ⟨l2, ls2⟩
      · rw [he] at ih
        show c :: (splitChAux '\n' cs).1 = c :: cs
        rw [show joinLines [(splitChAux '\n' cs).1] = (splitChAux '\n' cs).1 from rfl] at ih
        rw [ih]
      · rw [he] at ih
        show (c :: (splitChAux '\n' cs).1) ++ '\n' :: joinLines (l2 :: ls2) = c :: cs
        rw [show joinLines ((splitChAux '\n' cs).1 :: l2 :: ls2)
            = (splitChAux '\n' cs).1 ++ '\n' :: joinLines (l2 :: ls2) from rfl] at ih
        rw [List.cons_append, ih]

theorem splitCh_joinLines (dls : List (List Char)) (hne : dls ≠ [])
    (hnl : ∀ l ∈ dls, '\n' ∉ l) : splitCh '\n' (joinLines dls) = dls := by
  induction dls with
  | nil => exact absurd rfl hne
  | cons l ls ih =>
    rcases ls with _ | ⟨l', ls'⟩
    · exact splitCh_of_sep_notMem '\n' l (hnl l (by simp))
    · have h1 : joinLines (l :: l' :: ls') = l ++ '\n' :: joinLines (l' :: ls') := rfl
      rw [h1, splitCh_append_sep '\n' l _ (hnl l (by simp)),
        ih (by simp) (fun x hx => hnl x (List.mem_cons_of_mem l hx))]

theorem splitCh_joinLines_append (dls : List (List Char)) (t : List Char)
    (hne : dls ≠ []) (hnl : ∀ l ∈ dls, '\n' ∉ l) :
    splitCh '\n' (joinLines dls ++ '\n' :: t) = dls ++ splitCh '\n' t := by
  induction dls with
  | nil => exact absurd rfl hne
  | cons l ls ih =>
    rcases ls with _ | ⟨l', ls'⟩
    · simp only [joinLines]
      rw [splitCh_append_sep '\n' l t (hnl l (by simp))]
      rfl
    · have h1 : joinLines (l :: l' :: ls') = l ++ '\n' :: joinLines (l' :: ls') := rfl
      rw [h1, List.append_assoc, List.cons_append,
        splitCh_append_sep '\n' l _ (hnl l (by simp)),
        ih (by simp) (fun x hx => hnl x (List.mem_cons_of_mem l hx))]
      rfl

theorem serializeBlocks_eq_flatten (blocks : List ParsedBlock) :
    serializeBlocks blocks = (blocks.map blockChunk).flatten := by
  have h : ∀ (bs : List ParsedBlock) (acc : List Char),
      bs.foldl (fun a pb => a ++ blockChunk pb) acc = acc ++ (bs.map blockChunk).flatten := by
    intro bs
    induction bs with
    | nil => simp
    | cons b t ih => intro acc; simp [ih, List.append_assoc]
  simpa using h blocks []

/-! ## C7: parse failure characterization -/

/-- Claim C7: `ParseSummary` returns an error exactly when its input is the
empty string (the `empty-input` error) or the scan yields zero blocks (the
`no-findings` error); in every other case it returns a non-empty findings
sequence, and it never returns an empty sequence with a nil error. -/
theorem C7_parse_failure_characterization (text : List Char) :
    ((∃ e, ParseSummary text = Except.error e) ↔
      (text = [] ∨ scanLines none (splitLines text) = []))
    ∧ (∀ bs, ParseSummary text = Except.ok bs → bs ≠ [])
    ∧ (text = [] → ParseSummary text = Except.error ParseErr.emptyInput)
    ∧ (text ≠ [] → scanLines none (splitLines text) = [] →
        ParseSummary text = Except.error ParseErr.noFindings) := by
  unfold ParseSummary
  by_cases ht : text = []
  · subst ht
    simp
  · simp only [if_neg ht]
    by_cases hb : scanLines none (splitLines text) = []
    · simp [hb, ht]
    · have hne : (scanLines none (splitLines text)).isEmpty = false := by
        simpa [List.isEmpty_iff] using hb
      simp only [hne, Bool.false_eq_true, if_false]
      refine ⟨?_, ?_, fun h => absurd h ht, fun _ h => absurd h hb⟩
      · constructor
        · rintro ⟨e, he⟩
          exact absurd he (by simp)
        · rintro (h | h)
          · exact absurd h ht
          · exact absurd h hb
      · intro bs hbs
        have : scanLines none (splitLines text) = bs := by
          simpa using hbs
        rw [← this]
        exact hb

/-- Witness for C7 at the empty input. -/
theorem C7_witness : ParseSummary [] = Except.error ParseErr.emptyInput :=
  (C7_parse_failure_characterization []).2.2.1 rfl

/-! ## C5: filtered-file block format -/

/-- Counterexample to C5 as stated: the writer does not put a blank line
between the check-name line and the detail, so the file differs from the
claimed `check-name\n\ndetail\n\n---…---\n` concatenation already for a
single finding. -/
theorem C5_counterexample :
    ¬ (serializeBlocks
        [⟨"INFO".toList, "Detailed information for X".toList, "d".toList⟩]
      = claimedSerialize
        [⟨"INFO".toList, "Detailed information for X".toList, "d".toList⟩]) := by
  decide

/-- Claim C5 as amended: the filtered file is exactly the concatenation, in
finding order, of `check-name\ndetail\n\n---------------------------------------\n`
per finding — a single newline (no blank line) separates the check-name line
from the detail. -/
theorem C5_filtered_file_format (blocks : List ParsedBlock) :
    serializeBlocks blocks = (blocks.map (fun pb =>
      pb.CheckName ++ '\n' ::
        (pb.DetailRaw ++ "\n\n---------------------------------------\n".toList))).flatten := by
  rw [serializeBlocks_eq_flatten]
  have h : blockChunk = fun pb =>
      pb.CheckName ++ '\n' ::
        (pb.DetailRaw ++ "\n\n---------------------------------------\n".toList) := by
    funext pb
    show pb.CheckName ++ '\n' :: (pb.DetailRaw ++ '\n' :: '\n' :: (sepLine ++ ['\n'])) = _
    rw [show '\n' :: '\n' :: (sepLine ++ ['\n'])
        = "\n\n---------------------------------------\n".toList from rfl]
  rw [h]

/-! ## C1: worker result nullability -/

/-- Counterexample to C1 as stated: a successfully completed endpoint whose
findings are all removed by the filter stage (here: a cluster regex that does
not match) publishes nil findings together with a nil error, so
`findings == null` does not imply `error != null`. -/
theorem C1_counterexample :
    ¬ (((publishResult "c1".toList
        (Except.ok [⟨"INFO".toList, "Detailed information for X".toList, "abc".toList⟩])
        "c1".toList [] none (some (fun _ => false))).Blocks = none)
      ↔ ¬ ((publishResult "c1".toList
        (Except.ok [⟨"INFO".toList, "Detailed information for X".toList, "abc".toList⟩])
        "c1".toList [] none (some (fun _ => false))).Err = none)) := by
  decide

/-- Claim C1 as amended: a failed worker always publishes nil findings with
its error; a successful worker always publishes a nil error, and its findings
are nil exactly when the filter stage removed every parsed block — in
particular, with no filters configured a successful worker with at least one
parsed block publishes non-nil findings. -/
theorem C1_publish_nullability (cl : List Char)
    (outcome : Except (List Char) (List ParsedBlock)) (cluster sevFilter : List Char)
    (checkRegex clusterRegex : Option (List Char → Bool)) :
    (∀ ex, outcome = Except.error ex →
      publishResult cl outcome cluster sevFilter checkRegex clusterRegex
        = ⟨cl, none, some ex⟩)
    ∧ (∀ bs, outcome = Except.ok bs →
        (publishResult cl outcome cluster sevFilter checkRegex clusterRegex).Err = none
        ∧ ((publishResult cl outcome cluster sevFilter checkRegex clusterRegex).Blocks = none
            ↔ applyFilters bs cluster sevFilter checkRegex clusterRegex = []))
    ∧ (∀ bs, outcome = Except.ok bs → bs ≠ [] → sevFilter = [] → checkRegex = none →
        clusterRegex = none →
        (publishResult cl outcome cluster sevFilter checkRegex clusterRegex).Blocks ≠ none) := by
  refine ⟨?_, ?_, ?_⟩
  · intro ex hex
    subst hex
    rfl
  · intro bs hbs
    subst hbs
    unfold publishResult
    refine ⟨rfl, ?_⟩
    by_cases hf : applyFilters bs cluster sevFilter checkRegex clusterRegex = []
    · simp [hf]
    · have : (applyFilters bs cluster sevFilter checkRegex clusterRegex).isEmpty = false := by
        simpa [List.isEmpty_iff] using hf
      simp [this, hf]
  · intro bs hbs hne hsev hchk hclr
    subst hbs hsev hchk hclr
    unfold publishResult
    have hkeep : ∀ b ∈ bs, keepBlock [] none b = true := by
      intro b _
      simp [keepBlock]
    have hfil : applyFilters bs cluster [] none none = bs := by
      unfold applyFilters
      exact List.filter_eq_self.mpr hkeep
    have : (applyFilters bs cluster [] none none).isEmpty = false := by
      rw [hfil]
      simpa [List.isEmpty_iff] using hne
    simp [this]

/-- Witness for C1 as amended: with no filters, a successful worker with one
block publishes non-nil findings. -/
theorem C1_witness :
    (publishResult "c1".toList
      (Except.ok [⟨"INFO".toList, "Detailed information for X".toList, "abc".toList⟩])
      "c1".toList [] none none).Blocks ≠ none :=
  (C1_publish_nullability "c1".toList
    (Except.ok [⟨"INFO".toList, "Detailed information for X".toList, "abc".toList⟩])
    "c1".toList [] none none).2.2
    [⟨"INFO".toList, "Detailed information for X".toList, "abc".toList⟩]
    rfl (by decide) rfl rfl rfl

/-! ## Backoff helper lemmas -/

theorem jitteredBackoff_cap_eq (e maxDelay : Int) :
    (if e > maxDelay then maxDelay else e) = min e maxDelay := by
  rw [Int.min_def]
  split <;> split <;> omega

theorem jitteredBackoff_nonneg (e maxDelay : Int) (rng : Int → Int)
    (hrng : ∀ n, 0 < n → 0 ≤ rng n ∧ rng n < n) :
    0 ≤ jitteredBackoff e maxDelay rng := by
  unfold jitteredBackoff
  rw [jitteredBackoff_cap_eq]
  by_cases h : min e maxDelay ≤ 0
  · simp [h]
  · simp only [h, if_false]
    exact (hrng (min e maxDelay) (by omega)).1

theorem jitteredBackoff_le_maxDelay (e maxDelay : Int) (rng : Int → Int)
    (hrng : ∀ n, 0 < n → 0 ≤ rng n ∧ rng n < n) (hmd : 0 ≤ maxDelay) :
    jitteredBackoff e maxDelay rng ≤ maxDelay := by
  unfold jitteredBackoff
  rw [jitteredBackoff_cap_eq]
  by_cases h : min e maxDelay ≤ 0
  · simp [h, hmd]
  · simp only [h, if_false]
    have h1 := (hrng (min e maxDelay) (by omega)).2
    have h2 : min e maxDelay ≤ maxDelay := min_le_right e maxDelay
    omega

theorem selectBackoff_le_maxDelay (status : Int) (header : List Char)
    (ptd : List Char → Option Int) (e maxDelay : Int) (rng : Int → Int)
    (hrng : ∀ n, 0 < n → 0 ≤ rng n ∧ rng n < n) (hmd : 0 ≤ maxDelay)
    (hra : status = 429 → (retryAfterDelay header ptd).2 = true →
      (retryAfterDelay header ptd).1 = 0) :
    selectBackoff status header ptd e maxDelay rng ≤ maxDelay := by
  unfold selectBackoff
  by_cases hs : status = 429
  · simp only [hs, if_pos rfl]
    by_cases hok : (retryAfterDelay header ptd).2 = true
    · rw [hra hs hok]
      simp only [hok, if_pos rfl, if_pos rfl]
      exact jitteredBackoff_le_maxDelay e maxDelay rng hrng hmd
    · simp only [hok]
      simp only [Bool.false_eq_true, if_false, if_pos rfl]
      exact jitteredBackoff_le_maxDelay e maxDelay rng hrng hmd
  · simp only [hs, if_false, if_pos rfl]
    exact jitteredBackoff_le_maxDelay e maxDelay rng hrng hmd

/-! ## C10: jittered backoff totality and bounds -/

/-- Counterexample to C10 as stated: the claim asserts `0 ≤ d ≤ max delay`
for every max delay, but for a negative max delay (a representable
`time.Duration` the config layer never rejects) the function returns 0,
which exceeds it. -/
theorem C10_counterexample :
    ¬ (jitteredBackoff 400000000 (-1) (fun _ => 0) ≤ -1) := by
  decide

/-- Claim C10 as amended: for every value `e` of the float exponential
expression (hence for every base delay and attempt number, including
overflow), the backoff is non-negative, is at most `max maxDelay 0` (so at
most `maxDelay` whenever `maxDelay ≥ 0`), returns exactly 0 when the computed
cap `min e maxDelay` is non-positive, and otherwise is exactly one invocation
of the random generator at the positive bound `min e maxDelay` — the
generator is never consulted with a non-positive bound, so the Go code cannot
panic in `rand.Int63n`. -/
theorem C10_jittered_backoff_safety (e maxDelay : Int) (rng : Int → Int)
    (hrng : ∀ n, 0 < n → 0 ≤ rng n ∧ rng n < n) :
    0 ≤ jitteredBackoff e maxDelay rng
    ∧ jitteredBackoff e maxDelay rng ≤ max maxDelay 0
    ∧ (0 ≤ maxDelay → jitteredBackoff e maxDelay rng ≤ maxDelay)
    ∧ (min e maxDelay ≤ 0 → jitteredBackoff e maxDelay rng = 0)
    ∧ (jitteredBackoff e maxDelay rng = 0
        ∨ ∃ c, 0 < c ∧ c = min e maxDelay ∧ jitteredBackoff e maxDelay rng = rng c) := by
  refine ⟨jitteredBackoff_nonneg e maxDelay rng hrng, ?_, ?_, ?_, ?_⟩
  · by_cases hmd : 0 ≤ maxDelay
    · have := jitteredBackoff_le_maxDelay e maxDelay rng hrng hmd
      have h2 : maxDelay ≤ max maxDelay 0 := le_max_left _ _
      omega
    · have hmin : min e maxDelay ≤ 0 := by
        have := min_le_right e maxDelay
        omega
      unfold jitteredBackoff
      rw [jitteredBackoff_cap_eq]
      simp only [hmin, if_pos]
      exact le_max_right _ _
  · exact fun hmd => jitteredBackoff_le_maxDelay e maxDelay rng hrng hmd
  · intro hmin
    unfold jitteredBackoff
    rw [jitteredBackoff_cap_eq]
    simp [hmin]
  · by_cases hmin : min e maxDelay ≤ 0
    · left
      unfold jitteredBackoff
      rw [jitteredBackoff_cap_eq]
      simp [hmin]
    · right
      refine ⟨min e maxDelay, by omega, rfl, ?_⟩
      unfold jitteredBackoff
      rw [jitteredBackoff_cap_eq]
      simp [hmin]

/-- Witness for C10 as amended at a concrete policy. -/
theorem C10_witness :
    0 ≤ jitteredBackoff 10 5 (fun n => n - 1)
    ∧ jitteredBackoff 10 5 (fun n => n - 1) ≤ 5 :=
  ⟨(C10_jittered_backoff_safety 10 5 (fun n => n - 1)
      (fun n hn => by show 0 ≤ n - 1 ∧ n - 1 < n; omega)).1,
   (C10_jittered_backoff_safety 10 5 (fun n => n - 1)
      (fun n hn => by show 0 ≤ n - 1 ∧ n - 1 < n; omega)).2.2.1 (by omega)⟩

/-! ## C4: Retry-After honoring -/

/-- Counterexample to C4 as stated: for the (admittedly enormous) integer
header value k = 10^10 the Go computation `time.Duration(k) * time.Second`
overflows int64 and the waited delay is negative, not ≥ k seconds. -/
theorem C4_counterexample :
    ¬ ((10000000000 : Int) * 1000000000
      ≤ selectBackoff 429 "10000000000".toList (fun _ => none) 400000000 8000000000
          (fun _ => 0)) := by
  decide

/-- Claim C4 as amended: on HTTP 429 with a positive integer `Retry-After`
header `k` whose value in nanoseconds fits int64, the backoff before the next
attempt is exactly `k` seconds — independent of `maxDelay`, hence not capped
by it. -/
theorem C4_retry_after_honored (header : List Char) (ptd : List Char → Option Int)
    (e maxDelay : Int) (rng : Int → Int) (k : Int)
    (hk : goAtoi header = some k) (hpos : 0 < k)
    (hfit : k * 1000000000 < 2 ^ 63) :
    selectBackoff 429 header ptd e maxDelay rng = k * 1000000000 := by
  have hne : ¬ (header = []) := by
    intro h
    rw [h] at hk
    simp [goAtoi, parseDigits] at hk
  have hwrap : wrap64 (k * 1000000000) = k * 1000000000 := by
    unfold wrap64
    omega
  unfold selectBackoff retryAfterDelay
  simp only [hne, if_false, hk, if_pos rfl, hwrap, if_pos rfl]
  have hz : ¬ (k * 1000000000 = 0) := by omega
  simp [hz]

/-- Witness for C4 as amended: `Retry-After: 3` yields exactly 3 s even though
the configured max delay is 2 s. -/
theorem C4_witness :
    selectBackoff 429 "3".toList (fun _ => none) 400000000 2000000000 (fun _ => 0)
      = 3 * 1000000000 :=
  C4_retry_after_honored "3".toList (fun _ => none) 400000000 2000000000 (fun _ => 0) 3
    (by decide) (by decide) (by decide)

/-! ## C3: delays versus max_delay -/

/-- Counterexample to C3 as stated: an attempt that gets HTTP 429 with
`Retry-After: 10` under max delay 8 s waits 10 s — the delay between two
consecutive attempts of `DoWithRetry` exceeds `max_delay`. -/
theorem C3_counterexample :
    (doRetryAux (fun _ => AttemptOutcome.ok 429 "10".toList []) "u".toList
      (fun _ => none) (fun _ => 400000000) 8000000000 (fun _ _ => 0) 1 2).delays
      = [10000000000]
    ∧ ¬ ((10000000000 : Int) ≤ 8000000000) := by
  decide

/-- Claim C3 as amended: every delay `DoWithRetry` waits between consecutive
attempts is at most `max_delay` (for a non-negative `max_delay`), except after
an HTTP 429 response whose `Retry-After` header is honored with a non-zero
value — transport errors, body-read errors, and every other status always
back off through the jittered path, which never exceeds `max_delay`. -/
theorem C3_delays_capped (o : Nat → AttemptOutcome) (url : List Char)
    (ptd : List Char → Option Int) (e : Nat → Int) (maxDelay : Int)
    (rng : Nat → Int → Int)
    (hrng : ∀ a n, 0 < n → 0 ≤ rng a n ∧ rng a n < n) (hmd : 0 ≤ maxDelay)
    (h429 : ∀ a s hd b, o a = AttemptOutcome.ok s hd b → s = 429 →
      (retryAfterDelay hd ptd).2 = true → (retryAfterDelay hd ptd).1 = 0) :
    ∀ attempt remaining,
      ∀ d ∈ (doRetryAux o url ptd e maxDelay rng attempt remaining).delays,
        d ≤ maxDelay := by
  intro attempt remaining
  induction remaining generalizing attempt with
  | zero => simp [doRetryAux]
  | succ r ih =>
    intro d hd
    rcases ho : o attempt with _ | _ | ⟨s, hdr, b⟩
    · simp only [doRetryAux, ho] at hd
      by_cases hr : r = 0
      · simp [hr] at hd
      · simp only [hr, if_false] at hd
        rcases List.mem_cons.mp hd with h | h
        · rw [h]
          exact jitteredBackoff_le_maxDelay (e attempt) maxDelay (rng attempt)
            (hrng attempt) hmd
        · exact ih (attempt + 1) d h
    · simp only [doRetryAux, ho] at hd
      by_cases hr : r = 0
      · simp [hr] at hd
      · simp only [hr, if_false] at hd
        rcases List.mem_cons.mp hd with h | h
        · rw [h]
          exact jitteredBackoff_le_maxDelay (e attempt) maxDelay (rng attempt)
            (hrng attempt) hmd
        · exact ih (attempt + 1) d h
    · simp only [doRetryAux, ho] at hd
      by_cases h2xx : 200 ≤ s ∧ s < 300
      · simp [h2xx] at hd
      · simp only [h2xx, if_false] at hd
        by_cases hcont : isRetryableStatus s = true ∧ ¬ (r = 0)
        · simp only [if_pos hcont] at hd
          rcases List.mem_cons.mp hd with h | h
          · rw [h]
            exact selectBackoff_le_maxDelay s hdr ptd (e attempt) maxDelay (rng attempt)
              (hrng attempt) hmd (h429 attempt s hdr b ho)
          · exact ih (attempt + 1) d h
        · simp [hcont] at hd

/-- Witness for C3 as amended: a retried 503 waits a jittered delay within
the 8 s cap. -/
theorem C3_witness : (0 : Int) ≤ 8000000000 :=
  C3_delays_capped (fun _ => AttemptOutcome.ok 503 [] []) "u".toList (fun _ => none)
    (fun _ => 400000000) 8000000000 (fun _ _ => 0)
    (fun a n hn => ⟨le_refl 0, hn⟩) (by omega)
    (by
      intro a s hd b h1 h2
      have hs : s = 503 := by
        have : AttemptOutcome.ok 503 [] [] = AttemptOutcome.ok s hd b := h1
        injection this with h _ _
        omega
      omega)
    1 3 0 (by decide)

/-! ## C8: attempt budget, 2xx success, terminal statuses -/

/-- Claim C8: under a retry policy with `N ≥ 1` max attempts `DoWithRetry`
issues at most `N` attempts; an attempt that receives a 2xx status returns
success immediately with the response body (one attempt from that point, no
delay); and an attempt that receives a status outside 2xx and outside
{408, 429, 500, 502, 503, 504} terminates at once with the `http-status`
error carrying the status code and the request URL. -/
theorem C8_attempts_and_terminal (o : Nat → AttemptOutcome) (url : List Char)
    (ptd : List Char → Option Int) (e : Nat → Int) (maxDelay : Int)
    (rng : Nat → Int → Int) :
    (∀ attempt remaining,
      (doRetryAux o url ptd e maxDelay rng attempt remaining).attemptsUsed ≤ remaining)
    ∧ (∀ N, 1 ≤ N → (DoWithRetry o url ptd e maxDelay rng N).attemptsUsed ≤ N)
    ∧ (∀ attempt remaining s h b, 1 ≤ remaining →
        o attempt = AttemptOutcome.ok s h b → 200 ≤ s → s < 300 →
        doRetryAux o url ptd e maxDelay rng attempt remaining
          = ⟨RetryRes.success s b, 1, []⟩)
    ∧ (∀ attempt remaining s h b, 1 ≤ remaining →
        o attempt = AttemptOutcome.ok s h b → ¬ (200 ≤ s ∧ s < 300) →
        isRetryableStatus s = false →
        doRetryAux o url ptd e maxDelay rng attempt remaining
          = ⟨RetryRes.httpErr s url, 1, []⟩) := by
  have hbound : ∀ remaining attempt,
      (doRetryAux o url ptd e maxDelay rng attempt remaining).attemptsUsed ≤ remaining := by
    intro remaining
    induction remaining with
    | zero => intro attempt; simp [doRetryAux]
    | succ r ih =>
      intro attempt
      rcases ho : o attempt with _ | _ | ⟨s, hdr, b⟩
      · simp only [doRetryAux, ho]
        by_cases hr : r = 0
        · simp [hr]
        · simp only [hr, if_false]
          have := ih (attempt + 1)
          omega
      · simp only [doRetryAux, ho]
        by_cases hr : r = 0
        · simp [hr]
        · simp only [hr, if_false]
          have := ih (attempt + 1)
          omega
      · simp only [doRetryAux, ho]
        by_cases h2xx : 200 ≤ s ∧ s < 300
        · simp [h2xx]
        · simp only [h2xx, if_false]
          by_cases hcont : isRetryableStatus s = true ∧ ¬ (r = 0)
          · simp only [if_pos hcont]
            have := ih (attempt + 1)
            omega
          · simp [hcont]
  refine ⟨fun attempt remaining => hbound remaining attempt, ?_, ?_, ?_⟩
  · intro N hN
    unfold DoWithRetry
    have hmax : max N 1 = N := Nat.max_eq_left hN
    rw [hmax]
    exact hbound N 1
  · intro attempt remaining s h b hrem ho h200 h300
    rcases remaining with _ | r
    · omega
    · simp [doRetryAux, ho, h200, h300]
  · intro attempt remaining s h b hrem ho h2xx hnr
    rcases remaining with _ | r
    · omega
    · simp [doRetryAux, ho, h2xx, hnr]

/-- Witness for C8 at a first-attempt 2xx. -/
theorem C8_witness :
    doRetryAux (fun _ => AttemptOutcome.ok 200 [] "ok".toList) "u".toList
      (fun _ => none) (fun _ => 1) 5 (fun _ _ => 0) 1 6
      = ⟨RetryRes.success 200 "ok".toList, 1, []⟩ :=
  (C8_attempts_and_terminal (fun _ => AttemptOutcome.ok 200 [] "ok".toList) "u".toList
    (fun _ => none) (fun _ => 1) 5 (fun _ _ => 0)).2.2.1
    1 6 200 [] "ok".toList (by omega) rfl (by omega) (by omega)

/-! ## C9: monotone clamped progress -/

/-- Claim C9: during polling, each percent reported to the progress callback
equals `max(previous, min(100, p'))` (for any previous value in `[1, 100]`,
which the loop maintains from its initial report of 1); consequently the
reported sequence is non-decreasing, never exceeds 100, and, when the loop
exits into the summary phase, its last report is exactly 100. -/
theorem C9_poll_monotone (last : Int) (sts : List PollStatus)
    (h1 : 1 ≤ last) (h2 : last ≤ 100) :
    List.Chain (fun a b => a ≤ b) last (pollLoop last sts).1
    ∧ (∀ r ∈ (pollLoop last sts).1, r ≤ 100)
    ∧ ((pollLoop last sts).2 = some true → (pollLoop last sts).1.getLast? = some 100)
    ∧ (∀ p, clampPct last p = max last (min 100 p)) := by
  have hval : ∀ l p : Int, clampPct l p
      = if (if p < l then l else p) > 100 then 100 else (if p < l then l else p) :=
    fun l p => rfl
  have hclamp : ∀ l p : Int, l ≤ 100 → l ≤ clampPct l p ∧ clampPct l p ≤ 100 := by
    intro l p hl
    rw [hval]
    split_ifs <;> omega
  have hform : ∀ l p : Int, l ≤ 100 → clampPct l p = max l (min 100 p) := by
    intro l p hl
    rw [hval, Int.max_def, Int.min_def]
    split_ifs <;> omega
  have hstep : ∀ (l : Int) (st : PollStatus) (rest : List PollStatus),
      pollLoop l (st :: rest)
        = (if st.ProgressStatus = "Failed".toList then
            ([clampPct l st.PercentageComplete], some false)
          else if 100 ≤ clampPct l st.PercentageComplete then
            ([clampPct l st.PercentageComplete], some true)
          else
            (clampPct l st.PercentageComplete
                :: (pollLoop (clampPct l st.PercentageComplete) rest).1,
              (pollLoop (clampPct l st.PercentageComplete) rest).2)) :=
    fun l st rest => rfl
  induction sts generalizing last with
  | nil =>
    refine ⟨List.Chain.nil, by simp [pollLoop], by simp [pollLoop], fun p => hform last p h2⟩
  | cons st rest ih =>
    by_cases hfail : st.ProgressStatus = "Failed".toList
    · have hres : pollLoop last (st :: rest)
          = ([clampPct last st.PercentageComplete], some false) := by
        rw [hstep, if_pos hfail]
      rw [hres]
      refine ⟨?_, ?_, by simp, fun p => hform last p h2⟩
      · exact List.Chain.cons (hclamp last st.PercentageComplete h2).1 List.Chain.nil
      · intro r hr
        rcases List.mem_singleton.mp hr with h
        rw [h]
        exact (hclamp last st.PercentageComplete h2).2
    · by_cases hdone : 100 ≤ clampPct last st.PercentageComplete
      · have hres : pollLoop last (st :: rest)
            = ([clampPct last st.PercentageComplete], some true) := by
          rw [hstep, if_neg hfail, if_pos hdone]
        rw [hres]
        have hEq : clampPct last st.PercentageComplete = 100 := by
          have := (hclamp last st.PercentageComplete h2).2
          omega
        refine ⟨?_, ?_, ?_, fun p => hform last p h2⟩
        · exact List.Chain.cons (hclamp last st.PercentageComplete h2).1 List.Chain.nil
        · intro r hr
          rcases List.mem_singleton.mp hr with h
          rw [h]
          exact (hclamp last st.PercentageComplete h2).2
        · intro _
          simp [hEq]
      · have hres : pollLoop last (st :: rest)
            = (clampPct last st.PercentageComplete
                  :: (pollLoop (clampPct last st.PercentageComplete) rest).1,
                (pollLoop (clampPct last st.PercentageComplete) rest).2) := by
          rw [hstep, if_neg hfail, if_neg hdone]
        have hb := hclamp last st.PercentageComplete h2
        have hbounds1 : 1 ≤ clampPct last st.PercentageComplete := by omega
        have hrec := ih (clampPct last st.PercentageComplete) hbounds1 hb.2
        rw [hres]
        refine ⟨List.Chain.cons hb.1 hrec.1, ?_, ?_, fun p => hform last p h2⟩
        · intro r hr
          rcases List.mem_cons.mp hr with h | h
          · rw [h]; exact hb.2
          · exact hrec.2.1 r h
        · intro hsucc
          have hlast := hrec.2.2.1 hsucc
          have hcons : ∀ (a : Int) (l : List Int), l.getLast? = some 100 →
              (a :: l).getLast? = some 100 := by
            intro a l hl
            cases l with
            | nil => simp at hl
            | cons x xs => rw [List.getLast?_cons_cons]; exact hl
          exact hcons _ _ hlast

/-- Witness for C9 on a concrete poll trace reaching 100. -/
theorem C9_witness :
    (pollLoop 1 [⟨50, "Running".toList⟩, ⟨100, "Succeeded".toList⟩]).1.getLast?
      = some 100 :=
  (C9_poll_monotone 1 [⟨50, "Running".toList⟩, ⟨100, "Succeeded".toList⟩]
    (by omega) (by omega)).2.2.1 (by decide)

/-! ## Parser structure lemmas for C2 -/

theorem splitLines_no_newline (s : List Char) : ∀ l ∈ splitLines s, '\n' ∉ l := by
  intro l hl
  unfold splitLines at hl
  by_cases hs : s = []
  · simp [hs] at hl
  · rw [if_neg hs] at hl
    rcases List.mem_map.mp hl with ⟨x, hx, hdx⟩
    intro hmem
    rw [← hdx] at hmem
    have hx2 : '\n' ∈ x := by
      unfold dropCR at hmem
      split at hmem
      · exact List.Sublist.mem hmem (List.dropLast_sublist x)
      · exact hmem
    exact splitCh_sep_notMem '\n' s x hx hx2

theorem referLines_all_false (buf : List (List Char))
    (h : ∀ l ∈ buf, isBlockEnd l = false ∧ '\n' ∉ l) :
    referLines (joinLines buf) = [] := by
  cases buf with
  | nil => decide
  | cons x xs =>
    unfold referLines detailLines
    rw [splitCh_joinLines (x :: xs) (by simp) (fun l hl => (h l hl).2)]
    rw [List.filter_eq_nil_iff]
    intro a ha
    simp [(h a ha).1]

theorem referLines_terminated (buf : List (List Char)) (e : List Char)
    (h : ∀ l ∈ buf, isBlockEnd l = false ∧ '\n' ∉ l)
    (he : isBlockEnd e = true) (hnle : '\n' ∉ e) :
    referLines (joinLines (buf ++ [e])) = [e]
    ∧ lastLineIsEnd (joinLines (buf ++ [e])) = true := by
  have hnn : ∀ l ∈ buf ++ [e], '\n' ∉ l := by
    intro l hl
    rcases List.mem_append.mp hl with h1 | h1
    · exact (h l h1).2
    · rw [List.mem_singleton.mp h1]
      exact hnle
  have hsplit : detailLines (joinLines (buf ++ [e])) = buf ++ [e] := by
    unfold detailLines
    exact splitCh_joinLines _ (by simp) hnn
  constructor
  · unfold referLines
    rw [hsplit, List.filter_append]
    have h1 : buf.filter isBlockEnd = [] := by
      rw [List.filter_eq_nil_iff]
      intro a ha
      simp [(h a ha).1]
    have h2 : [e].filter isBlockEnd = [e] := by
      simp [he]
    rw [h1, h2, List.nil_append]
  · unfold lastLineIsEnd
    rw [hsplit, List.getLast?_concat]
    exact he

theorem scanLines_blocks_wf (lines : List (List Char)) :
    ∀ (st : Option (List Char × List (List Char))),
      (∀ l ∈ lines, '\n' ∉ l) →
      (∀ cn buf, st = some (cn, buf) → isBlockStart cn = true
        ∧ ∀ l ∈ buf, isBlockEnd l = false ∧ '\n' ∉ l) →
      (∀ b ∈ scanLines st lines,
        isBlockStart b.CheckName = true
        ∧ (referLines b.DetailRaw).length ≤ 1
        ∧ ((referLines b.DetailRaw).length = 1 → lastLineIsEnd b.DetailRaw = true))
      ∧ (∀ b ∈ (scanLines st lines).dropLast, (referLines b.DetailRaw).length = 1) := by
  induction lines with
  | nil =>
    intro st _ hst
    rcases st with _ | ⟨cn, buf⟩
    · exact ⟨by simp [scanLines], by simp [scanLines]⟩
    · have hcn := (hst cn buf rfl).1
      have hbuf := (hst cn buf rfl).2
      have hzero : referLines (joinLines buf) = [] := referLines_all_false buf hbuf
      constructor
      · intro b hb
        rw [show scanLines (some (cn, buf)) [] = [mkBlock cn buf] from rfl] at hb
        rw [List.mem_singleton.mp hb]
        refine ⟨hcn, ?_, ?_⟩
        · show (referLines (joinLines buf)).length ≤ 1
          rw [hzero]
          simp
        · show (referLines (joinLines buf)).length = 1 → _
          rw [hzero]
          simp
      · rw [show scanLines (some (cn, buf)) [] = [mkBlock cn buf] from rfl]
        simp
  | cons l ls ih =>
    intro st hl hst
    have hls : ∀ x ∈ ls, '\n' ∉ x := fun x hx => hl x (List.mem_cons_of_mem l hx)
    have hlnl : '\n' ∉ l := hl l (List.mem_cons_self l ls)
    rcases st with _ | ⟨cn, buf⟩
    · by_cases hstart : isBlockStart l
      · rw [show scanLines none (l :: ls) = scanLines (some (l, [])) ls by
          simp [scanLines, hstart]]
        exact ih (some (l, [])) hls (by
          intro cn buf hcb
          injection hcb with hcb2
          injection hcb2 with h1 h2
          subst h1
          subst h2
          exact ⟨hstart, by simp⟩)
      · rw [show scanLines none (l :: ls) = scanLines none ls by
          simp [scanLines, hstart]]
        exact ih none hls (by intro cn buf hcb; cases hcb)
    · have hcn := (hst cn buf rfl).1
      have hbuf := (hst cn buf rfl).2
      by_cases hend : isBlockEnd l
      · rw [show scanLines (some (cn, buf)) (l :: ls)
            = mkBlock cn (buf ++ [l]) :: scanLines none ls by
          simp [scanLines, hend]]
        have hterm := referLines_terminated buf l hbuf hend hlnl
        have hrest := ih none hls (by intro cn2 buf2 hcb; cases hcb)
        constructor
        · intro b hb
          rcases List.mem_cons.mp hb with h1 | h1
          · rw [h1]
            refine ⟨hcn, ?_, ?_⟩
            · show (referLines (joinLines (buf ++ [l]))).length ≤ 1
              rw [hterm.1]
              simp
            · intro _
              exact hterm.2
          · exact hrest.1 b h1
        · intro b hb
          rcases hr : scanLines none ls with _ | ⟨r0, rs⟩
          · rw [hr] at hb
            simp at hb
          · rw [hr] at hb
            rw [show (mkBlock cn (buf ++ [l]) :: r0 :: rs).dropLast
                = mkBlock cn (buf ++ [l]) :: (r0 :: rs).dropLast from rfl] at hb
            rcases List.mem_cons.mp hb with h1 | h1
            · rw [h1]
              show (referLines (joinLines (buf ++ [l]))).length = 1
              rw [hterm.1]
              rfl
            · rw [← hr] at h1
              exact hrest.2 b h1
      · rw [show scanLines (some (cn, buf)) (l :: ls)
            = scanLines (some (cn, buf ++ [l])) ls by
          simp [scanLines, hend]]
        exact ih (some (cn, buf ++ [l])) hls (by
          intro cn2 buf2 hcb
          injection hcb with hcb2
          injection hcb2 with h1 h2
          subst h1
          subst h2
          refine ⟨hcn, ?_⟩
          intro x hx
          rcases List.mem_append.mp hx with h1 | h1
          · exact hbuf x h1
          · rw [List.mem_singleton.mp h1]
            exact ⟨by simpa using hend, hlnl⟩)

theorem ParseSummary_ok_eq (text : List Char) (bs : List ParsedBlock)
    (h : ParseSummary text = Except.ok bs) :
    bs = scanLines none (splitLines text) := by
  unfold ParseSummary at h
  split at h
  · cases h
  · have h2 : (if (scanLines none (splitLines text)).isEmpty = true
        then (Except.error ParseErr.noFindings : Except ParseErr (List ParsedBlock))
        else Except.ok (scanLines none (splitLines text))) = Except.ok bs := h
    split at h2
    · cases h2
    · injection h2 with h1
      exact h1.symm

/-! ## C2: finding shape -/

/-- Counterexample to C2 as stated: when the input ends before any
`Refer to` line, `ParseSummary` still succeeds, and the (single, final)
finding's raw detail contains zero lines matching `^Refer to.*`, not exactly
one. -/
theorem C2_counterexample :
    ParseSummary "Detailed information for X\nabc".toList
      = Except.ok [⟨"INFO".toList, "Detailed information for X".toList, "abc".toList⟩]
    ∧ ¬ ((referLines "abc".toList).length = 1) := by
  decide

/-- Claim C2 as amended: every finding produced by `ParseSummary` begins with
a check-name line matching `^Detailed information for .*`; its raw detail
contains at most one line matching `^Refer to.*`, and when such a line is
present it is the last line of the detail; every finding except possibly the
last contains exactly one such line (only the final finding can be left
unterminated by the end of the input). -/
theorem C2_finding_shape (text : List Char) (bs : List ParsedBlock)
    (h : ParseSummary text = Except.ok bs) :
    (∀ b ∈ bs, isBlockStart b.CheckName = true
      ∧ (referLines b.DetailRaw).length ≤ 1
      ∧ ((referLines b.DetailRaw).length = 1 → lastLineIsEnd b.DetailRaw = true))
    ∧ (∀ b ∈ bs.dropLast, (referLines b.DetailRaw).length = 1) := by
  rw [ParseSummary_ok_eq text bs h]
  exact scanLines_blocks_wf (splitLines text) none (splitLines_no_newline text)
    (by intro cn buf hcb; cases hcb)

/-- Witness for C2 as amended on a concrete two-line summary. -/
theorem C2_witness :
    isBlockStart ("Detailed information for A".toList) = true
    ∧ (referLines "Refer to KB".toList).length ≤ 1 :=
  have hsh := C2_finding_shape "Detailed information for A\nRefer to KB".toList
    [⟨"INFO".toList, "Detailed information for A".toList, "Refer to KB".toList⟩]
    (by decide)
  ⟨(hsh.1 ⟨"INFO".toList, "Detailed information for A".toList, "Refer to KB".toList⟩
      (by decide)).1,
   (hsh.1 ⟨"INFO".toList, "Detailed information for A".toList, "Refer to KB".toList⟩
      (by decide)).2.1⟩

/-! ## Round-trip lemmas for C6 -/

theorem splitCh_cons_sep (sep : Char) (t : List Char) :
    splitCh sep (sep :: t) = [] :: splitCh sep t := by
  simp [splitCh, splitChAux]

theorem sepLine_no_newline : ('\n' : Char) ∉ sepLine := by decide

theorem dropCR_sepLine : dropCR sepLine = sepLine := by decide

theorem isBlockStart_nil : isBlockStart [] = false := by decide

theorem isBlockStart_sepLine : isBlockStart sepLine = false := by decide

theorem detailLines_ne_nil (d : List Char) : detailLines d ≠ [] := by
  unfold detailLines splitCh
  simp

theorem splitCh_blockChunk (b : ParsedBlock) (t : List Char)
    (hcn : '\n' ∉ b.CheckName) :
    splitCh '\n' (blockChunk b ++ t)
      = b.CheckName :: (detailLines b.DetailRaw
          ++ [] :: sepLine :: splitCh '\n' t) := by
  have h1 : blockChunk b ++ t
      = b.CheckName ++ '\n' :: (b.DetailRaw ++ '\n' :: ('\n' :: (sepLine ++ '\n' :: t))) := by
    unfold blockChunk
    simp [List.append_assoc]
  rw [h1, splitCh_append_sep '\n' b.CheckName _ hcn]
  have h2 : b.DetailRaw = joinLines (detailLines b.DetailRaw) := by
    unfold detailLines
    rw [joinLines_splitCh]
  rw [h2, splitCh_joinLines_append (detailLines b.DetailRaw) _
    (detailLines_ne_nil b.DetailRaw)
    (fun l hl => splitCh_sep_notMem '\n' b.DetailRaw l hl)]
  rw [splitCh_cons_sep '\n' (sepLine ++ '\n' :: t),
    splitCh_append_sep '\n' sepLine t sepLine_no_newline]
  rw [← h2]

theorem splitCh_serialize (bs : List ParsedBlock)
    (hcn : ∀ b ∈ bs, '\n' ∉ b.CheckName) :
    splitCh '\n' ((bs.map blockChunk).flatten)
      = (bs.map (fun b => b.CheckName
          :: (detailLines b.DetailRaw ++ [[], sepLine]))).flatten ++ [[]] := by
  induction bs with
  | nil => rfl
  | cons b rest ih =>
    rw [List.map_cons, List.flatten_cons,
      splitCh_blockChunk b _ (hcn b (by simp)),
      ih (fun x hx => hcn x (List.mem_cons_of_mem b hx))]
    simp [List.append_assoc]

theorem serializeBlocks_ne_nil (b : ParsedBlock) (rest : List ParsedBlock) :
    serializeBlocks (b :: rest) ≠ [] := by
  rw [serializeBlocks_eq_flatten, List.map_cons, List.flatten_cons]
  intro h
  rcases List.append_eq_nil.mp h with ⟨h1, _⟩
  unfold blockChunk at h1
  rcases List.append_eq_nil.mp h1 with ⟨_, h2⟩
  cases h2

theorem map_dropCR_id (L : List (List Char)) (h : ∀ l ∈ L, dropCR l = l) :
    L.map dropCR = L := by
  induction L with
  | nil => rfl
  | cons x xs ih =>
    rw [List.map_cons, h x (by simp), ih (fun y hy => h y (List.mem_cons_of_mem x hy))]

theorem splitLines_serialize (bs : List ParsedBlock) (hne : bs ≠ [])
    (hwf : ∀ b ∈ bs, SerWF b) :
    splitLines (serializeBlocks bs)
      = (bs.map (fun b => b.CheckName
          :: (detailLines b.DetailRaw ++ [[], sepLine]))).flatten ++ [[]] := by
  have hser : serializeBlocks bs ≠ [] := by
    rcases bs with _ | ⟨b, rest⟩
    · exact absurd rfl hne
    · exact serializeBlocks_ne_nil b rest
  unfold splitLines
  rw [if_neg hser, serializeBlocks_eq_flatten,
    splitCh_serialize bs (fun b hb => (hwf b hb).2.1)]
  apply map_dropCR_id
  intro l hl
  rcases List.mem_append.mp hl with h1 | h1
  · rcases List.mem_flatten.mp h1 with ⟨grp, hgrp, hlg⟩
    rcases List.mem_map.mp hgrp with ⟨b, hb, hbg⟩
    rw [← hbg] at hlg
    obtain ⟨_, _, hcr, _, hdcr, _, _⟩ := hwf b hb
    rcases List.mem_cons.mp hlg with h2 | h2
    · rw [h2]; exact hcr
    · rcases List.mem_append.mp h2 with h3 | h3
      · exact hdcr l h3
      · rcases List.mem_cons.mp h3 with h4 | h4
        · rw [h4]; rfl
        · rw [List.mem_singleton.mp h4]
          exact dropCR_sepLine
  · rw [List.mem_singleton.mp h1]
    rfl

theorem scanLines_through_detail (cn : List Char) (acc mid : List (List Char))
    (e : List Char) (suffix : List (List Char))
    (hmid : ∀ l ∈ mid, isBlockEnd l = false) (he : isBlockEnd e = true) :
    scanLines (some (cn, acc)) ((mid ++ [e]) ++ suffix)
      = mkBlock cn (acc ++ (mid ++ [e])) :: scanLines none suffix := by
  induction mid generalizing acc with
  | nil =>
    show scanLines (some (cn, acc)) (e :: suffix) = _
    simp [scanLines, he]
  | cons d ds ih =>
    have hd : isBlockEnd d = false := hmid d (by simp)
    show scanLines (some (cn, acc)) (d :: ((ds ++ [e]) ++ suffix)) = _
    rw [show scanLines (some (cn, acc)) (d :: ((ds ++ [e]) ++ suffix))
        = scanLines (some (cn, acc ++ [d])) ((ds ++ [e]) ++ suffix) by
      simp [scanLines, hd]]
    rw [ih (acc ++ [d]) (fun x hx => hmid x (List.mem_cons_of_mem d hx))]
    simp [List.append_assoc]

theorem scanLines_skip_sep (suffix : List (List Char)) :
    scanLines none ([] :: sepLine :: suffix) = scanLines none suffix := by
  simp [scanLines, isBlockStart_nil, isBlockStart_sepLine]

theorem scanLines_chunkLines (bs : List ParsedBlock) (hwf : ∀ b ∈ bs, SerWF b) :
    scanLines none
      ((bs.map (fun b => b.CheckName
          :: (detailLines b.DetailRaw ++ [[], sepLine]))).flatten ++ [[]]) = bs := by
  induction bs with
  | nil =>
    show scanLines none [[]] = []
    simp [scanLines, isBlockStart_nil]
  | cons b rest ih =>
    obtain ⟨hstart, hcnl, hcr, hsev, hdcr, hdmid, hdlast⟩ := hwf b (by simp)
    have hLne : detailLines b.DetailRaw ≠ [] := detailLines_ne_nil b.DetailRaw
    have hgl : (detailLines b.DetailRaw).getLast? =
        some ((detailLines b.DetailRaw).getLast hLne) :=
      List.getLast?_eq_getLast _ hLne
    have he : isBlockEnd ((detailLines b.DetailRaw).getLast hLne) = true := by
      unfold lastLineIsEnd at hdlast
      rw [hgl] at hdlast
      exact hdlast
    have hdecomp : (detailLines b.DetailRaw).dropLast
        ++ [(detailLines b.DetailRaw).getLast hLne] = detailLines b.DetailRaw :=
      List.dropLast_append_getLast hLne
    rw [List.map_cons, List.flatten_cons, List.append_assoc]
    rw [show (b.CheckName :: (detailLines b.DetailRaw ++ [[], sepLine]))
          ++ ((rest.map (fun b => b.CheckName
            :: (detailLines b.DetailRaw ++ [[], sepLine]))).flatten ++ [[]])
        = b.CheckName :: ((detailLines b.DetailRaw ++ [[], sepLine])
          ++ ((rest.map (fun b => b.CheckName
            :: (detailLines b.DetailRaw ++ [[], sepLine]))).flatten ++ [[]])) from rfl]
    rw [show scanLines none (b.CheckName :: ((detailLines b.DetailRaw ++ [[], sepLine])
          ++ ((rest.map (fun b => b.CheckName
            :: (detailLines b.DetailRaw ++ [[], sepLine]))).flatten ++ [[]])))
        = scanLines (some (b.CheckName, [])) ((detailLines b.DetailRaw ++ [[], sepLine])
          ++ ((rest.map (fun b => b.CheckName
            :: (detailLines b.DetailRaw ++ [[], sepLine]))).flatten ++ [[]])) by
      simp [scanLines, hstart]]
    rw [show (detailLines b.DetailRaw ++ [[], sepLine])
          ++ ((rest.map (fun b => b.CheckName
            :: (detailLines b.DetailRaw ++ [[], sepLine]))).flatten ++ [[]])
        = ((detailLines b.DetailRaw).dropLast
            ++ [(detailLines b.DetailRaw).getLast hLne])
          ++ ([] :: sepLine :: ((rest.map (fun b => b.CheckName
            :: (detailLines b.DetailRaw ++ [[], sepLine]))).flatten ++ [[]])) by
      rw [hdecomp]
      simp [List.append_assoc]]
    rw [scanLines_through_detail b.CheckName [] (detailLines b.DetailRaw).dropLast
      ((detailLines b.DetailRaw).getLast hLne) _ hdmid he]
    rw [scanLines_skip_sep, ih (fun x hx => hwf x (List.mem_cons_of_mem b hx))]
    have hjoin : joinLines ([] ++ ((detailLines b.DetailRaw).dropLast
        ++ [(detailLines b.DetailRaw).getLast hLne])) = b.DetailRaw := by
      rw [List.nil_append, hdecomp]
      unfold detailLines
      exact joinLines_splitCh b.DetailRaw
    have hblock : mkBlock b.CheckName ([] ++ ((detailLines b.DetailRaw).dropLast
        ++ [(detailLines b.DetailRaw).getLast hLne])) = b := by
      unfold mkBlock
      rw [hjoin]
      rcases b with ⟨s, c, d⟩
      simp only at hsev ⊢
      rw [← hsev]
    rw [hblock]

/-! ## C6: parse/serialize round trip -/

/-- Counterexample to C6 as stated: take the findings parsed from an input
whose (single, final) finding lacks a terminal `Refer to` line.  Re-parsing
the filtered-text serialization swallows the 39-dash separator into the
finding's detail, which therefore differs from the original even after
deleting every whitespace character — not a whitespace-normalization
difference. -/
theorem C6_counterexample :
    ParseSummary "Detailed information for X\nabc".toList
      = Except.ok [⟨"INFO".toList, "Detailed information for X".toList, "abc".toList⟩]
    ∧ ParseSummary (serializeBlocks
        [⟨"INFO".toList, "Detailed information for X".toList, "abc".toList⟩])
      = Except.ok [⟨"INFO".toList, "Detailed information for X".toList,
          "abc\n\n---------------------------------------\n".toList⟩]
    ∧ ¬ ((("abc\n\n---------------------------------------\n".toList).filter
          (fun c => !(goIsSpace c)))
        = (("abc".toList).filter (fun c => !(goIsSpace c)))) := by
  refine ⟨by decide, by decide, by decide⟩

/-- Claim C6 as amended: for every non-empty sequence of findings whose
check-names are single CR-clean lines matching the start regex, whose
severities are the parser-derived ones, and whose details are CR-clean and
terminated by a final `Refer to` line (no earlier line matching the end
regex), parsing the filtered-text serialization reproduces the findings
exactly — same check-name, severity and detail for each, in order.  Findings
parsed from an input in which every block is terminated satisfy these
conditions; only an unterminated final finding (see the counterexample)
escapes them. -/
theorem C6_round_trip (bs : List ParsedBlock) (hne : bs ≠ [])
    (hwf : ∀ b ∈ bs, SerWF b) :
    ParseSummary (serializeBlocks bs) = Except.ok bs := by
  have hser : serializeBlocks bs ≠ [] := by
    rcases bs with _ | ⟨b, rest⟩
    · exact absurd rfl hne
    · exact serializeBlocks_ne_nil b rest
  unfold ParseSummary
  rw [if_neg hser]
  have hscan : scanLines none (splitLines (serializeBlocks bs)) = bs := by
    rw [splitLines_serialize bs hne hwf]
    exact scanLines_chunkLines bs hwf
  have hbe : bs.isEmpty = false := by
    rcases bs with _ | _
    · exact absurd rfl hne
    · rfl
  rw [show (let blocks := scanLines none (splitLines (serializeBlocks bs))
      if blocks.isEmpty = true then Except.error ParseErr.noFindings
      else Except.ok blocks)
      = if bs.isEmpty = true then Except.error ParseErr.noFindings
        else Except.ok bs by rw [hscan]]
  rw [hbe]
  simp

/-- Witness for C6 on a concrete well-formed finding sequence. -/
theorem C6_witness :
    ParseSummary (serializeBlocks
      [⟨"FAIL".toList, "Detailed information for check X".toList,
        "FAIL: disk\nRefer to KB-1".toList⟩])
      = Except.ok [⟨"FAIL".toList, "Detailed information for check X".toList,
        "FAIL: disk\nRefer to KB-1".toList⟩] :=
  C6_round_trip
    [⟨"FAIL".toList, "Detailed information for check X".toList,
      "FAIL: disk\nRefer to KB-1".toList⟩]
    (by decide)
    (by
      intro b hb
      rw [List.mem_singleton.mp hb]
      refine ⟨by decide, by decide, by decide, by decide, by decide, by decide, by decide⟩)
